import Mathlib

/-!
Verification development for the npm-minimum-age-validation package
(lockfile differ, registry client, package-age validator).

The TypeScript sources in `src/core/differ.ts` (PackageLockDiffer,
RegistryClient, PackageValidator) and `src/utils/package-formatter.ts`
are shallowly embedded below.  JavaScript strings are modelled as
`List Char`; JavaScript `Date` values as integer millisecond
timestamps; JavaScript numbers used for ages/thresholds as rationals
(`ℚ`), and the effectful pieces (fs/git reads, HTTPS fetches, the
node-cache store) as explicit oracles and association lists.
-/

/-- JavaScript strings are modelled as lists of characters. -/
abbrev Str := List Char

/-- Shorthand for turning a Lean string literal into the model type. -/
def strOf (s : String) : Str := s.toList

/-! ## String helpers shared by the embedded components -/

/-- Semantics of the JavaScript `s.split(sep)` for a single-character
separator: split the character list at every occurrence of `sep`.
`split` always returns at least one (possibly empty) segment. -/
def splitChar (sep : Char) : Str → List Str
  | [] => [[]]
  | c :: cs =>
    if c = sep then [] :: splitChar sep cs
    else
      match splitChar sep cs with
      | [] => [[c]]
      | p :: ps => (c :: p) :: ps

/-- Semantics of `parts.join(sep)` for a single-character separator. -/
def joinChar (sep : Char) : List Str → Str
  | [] => []
  | [p] => p
  | p :: ps => p ++ sep :: joinChar sep ps

/-! ## PackageFormatter (src/utils/package-formatter.ts) -/

namespace PackageFormatter

/-- Embeds `PackageFormatter.toKey`: template literal `name@version`. -/
def toKey (name version : Str) : Str := name ++ '@' :: version

end PackageFormatter

/-- First-match lookup in an association list; models `Map.get` /
`node-cache get` where `(k, v) :: rest` shadows older entries for `k`
(so prepending models an overwriting `set`). -/
def assocGet {β : Type} : List (Str × β) → Str → Option β
  | [], _ => none
  | (k2, v) :: rest, k => if k2 = k then some v else assocGet rest k

/-- Embeds the package-string parsing at the start of
`RegistryClient.fetchUncachedPackages`: `pkg.split('@')`; when at least
two parts, the version is `parts.pop()` (the last segment) and the name
re-joins the rest; otherwise the name is the whole string and the
version defaults to `'latest'`. -/
def parsePkg (pkg : Str) : Str × Str :=
  let parts := splitChar '@' pkg
  if 2 ≤ parts.length then (joinChar '@' parts.dropLast, parts.getLastD [])
  else (pkg, strOf "latest")

/-! ## RegistryClient (src/core/registry-client.ts)

The HTTPS layer is abstracted by oracles: a `Resolver` gives the
settled outcome of `fetchPackageInfoWithRetry` for a `(name, version)`
pair (`Except.ok` = a resolved publish date or `null`; `Except.error` =
the exception escaping after the retry loop), and an `AttemptOracle`
gives the outcome of each individual `fetchPackageInfo` attempt for the
retry-loop development. -/

/-- Embeds the `CacheEntry` type from src/types.ts:
`publishDate: Date | null`, `timestamp: number`, `error?: string`. -/
structure CacheEntry where
  publishDate : Option Int
  timestamp : Int
  error : Option Str
  deriving DecidableEq

/-- The node-cache store: association list, first match wins, so an
overwriting `cache.set(key, entry)` is modelled by prepending. -/
abbrev Cache := List (Str × CacheEntry)

/-- Settled per-package fetch outcome (abstracts the network). -/
abbrev Resolver := Str → Str → Except Str (Option Int)

/-- Per-attempt fetch outcome for the retry development. -/
abbrev AttemptOracle := Nat → Except Str (Option Int)

/-- Semantics of the JavaScript `hay.includes(needle)`: the needle
occurs as a contiguous substring. -/
def containsSeq (needle : Str) : Str → Bool
  | [] => needle.isPrefixOf []
  | c :: rest => needle.isPrefixOf (c :: rest) || containsSeq needle rest

/-- Decidable equality for settled fetch outcomes (used by witnesses). -/
instance {ε α : Type} [DecidableEq ε] [DecidableEq α] : DecidableEq (Except ε α) := fun x y =>
  match x, y with
  | .ok a, .ok b => if h : a = b then .isTrue (by rw [h]) else .isFalse (by simp [h])
  | .ok _, .error _ => .isFalse (by simp)
  | .error _, .ok _ => .isFalse (by simp)
  | .error e, .error f => if h : e = f then .isTrue (by rw [h]) else .isFalse (by simp [h])

/-- Embeds the filter at the top of `getPackagesPublishDates`:
`pkg.startsWith('file:') || pkg.startsWith('./') || pkg.includes('lib/@')`. -/
def isLocalPkg (pkg : Str) : Bool :=
  (strOf "file:").isPrefixOf pkg || (strOf "./").isPrefixOf pkg ||
    containsSeq (strOf "lib/@") pkg

/-- Embeds `RegistryClient.getCachedPackages`: for each requested
package string, include it in the result map only when the cache holds
an entry whose `publishDate` is truthy (a non-null `Date`). -/
def getCachedPackages (cache : Cache) (packages : List Str) : List (Str × Int) :=
  packages.filterMap (fun pkg =>
    match assocGet cache pkg with
    | some entry => entry.publishDate.map (fun d => (pkg, d))
    | none => none)

/-- Embeds `RegistryClient.createBatches`: slice the list into
consecutive chunks of `batchSize`.  The JavaScript loop does not
terminate for `batchSize = 0`; the `[]` result in that case is a
totalization artifact and every theorem assumes `0 < batchSize`. -/
def createBatches {α : Type} : List α → Nat → List (List α)
  | [], _ => []
  | a :: l, batchSize =>
    if h : batchSize = 0 then []
    else (a :: l).take batchSize :: createBatches ((a :: l).drop batchSize) batchSize
termination_by l _ => l.length
decreasing_by
  simp only [List.length_drop, List.length_cons]
  omega

/-- Embeds the backoff computation
`Math.min(1000 * Math.pow(2, attempt - 1), 5000)`. -/
def backoffDelay (attempt : Nat) : Nat := min (1000 * 2 ^ (attempt - 1)) 5000

/-- Result of the retry loop: the settled outcome (`Except.error` with
the last error models `throw lastError`; the `Option Str` payload is
`none` exactly when `lastError` is still `null`, which only happens for
`retries = 0`), the backoff delays slept, and the number of attempts
made. -/
structure RetryOutcome where
  result : Except (Option Str) (Option Int)
  delays : List Nat
  attempts : Nat
  deriving DecidableEq

/-- Embeds the `for (let attempt = 1; attempt <= retries; ...)` loop of
`fetchPackageInfoWithRetry`: try the attempt; on success return the
date; on failure remember the error and, when more attempts remain,
sleep `backoffDelay attempt` and continue; exhausting the loop throws
the last error. -/
def retryLoop (att : AttemptOracle) (retries : Nat) (attempt : Nat)
    (lastError : Option Str) : RetryOutcome :=
  if h : retries < attempt then ⟨.error lastError, [], 0⟩
  else
    match att attempt with
    | .ok d => ⟨.ok d, [], 1⟩
    | .error e =>
      if attempt < retries then
        let r := retryLoop att retries (attempt + 1) (some e)
        ⟨r.result, backoffDelay attempt :: r.delays, r.attempts + 1⟩
      else ⟨.error (some e), [], 1⟩
termination_by retries + 1 - attempt

/-- Embeds `RegistryClient.fetchPackageInfoWithRetry` (the loop starts
at attempt 1 with `lastError = null`). -/
def fetchPackageInfoWithRetry (att : AttemptOracle) (retries : Nat) : RetryOutcome :=
  retryLoop att retries 1 none

/-- Embeds the construction of the `CacheEntry` written by
`fetchUncachedPackages` for one settled outcome: a resolved value keeps
the date and has no error; a caught error stores `publishDate: null`
with the error message. -/
def entryOfOutcome (now : Int) : Except Str (Option Int) → CacheEntry
  | .ok d => ⟨d, now, none⟩
  | .error e => ⟨none, now, some e⟩

/-- Embeds `RegistryClient.fetchUncachedPackages`: parse each package
string, batch by the concurrency limit, and for each batch in order
write every settled outcome to the cache under
`PackageFormatter.toKey(name, version)`. -/
def fetchUncachedPackages (resolve : Resolver) (concurrency : Nat) (now : Int)
    (cache : Cache) (packages : List Str) : Cache :=
  let packageInfos := packages.map parsePkg
  let batches := createBatches packageInfos concurrency
  batches.foldl
    (fun c batch =>
      batch.foldl
        (fun c2 pkg =>
          (PackageFormatter.toKey pkg.1 pkg.2, entryOfOutcome now (resolve pkg.1 pkg.2)) :: c2)
        c)
    cache

/-- Observable outcome of one `getPackagesPublishDates` call: the
returned map, the cache afterwards, and the package strings that
triggered network fetches (the uncached ones). -/
structure RegistryCallResult where
  dates : List (Str × Int)
  cache : Cache
  fetched : List Str
  deriving DecidableEq

/-- Embeds `RegistryClient.getPackagesPublishDates`: filter out local
packages, serve cached entries, fetch the uncached remainder, and
return the cached view of all requested packages. -/
def getPackagesPublishDates (resolve : Resolver) (concurrency : Nat) (now : Int)
    (cache : Cache) (packages : List Str) : RegistryCallResult :=
  let npmPackages := packages.filter (fun p => !isLocalPkg p)
  let cached := getCachedPackages cache npmPackages
  let uncached := npmPackages.filter (fun p => (assocGet cached p).isNone)
  let cache2 :=
    if 0 < uncached.length then fetchUncachedPackages resolve concurrency now cache uncached
    else cache
  ⟨getCachedPackages cache2 npmPackages, cache2, uncached⟩

/-! ## Validator data model (src/types.ts) -/

/-- Embeds `PackageInfo` (one candidate discovered by the differ). -/
structure PackageInfo where
  name : Str
  version : Str
  parent : Str
  isNew : Bool
  deriving DecidableEq

/-- Embeds `PackageFormatter.fromPackageInfo`. -/
def PackageFormatter.fromPackageInfo (pkg : PackageInfo) : Str :=
  PackageFormatter.toKey pkg.name pkg.version

/-- Embeds `PackageViolation` (candidate failing the age check). -/
structure PackageViolation where
  name : Str
  version : Str
  parent : Str
  publishDate : Int
  ageInHours : ℚ
  deriving DecidableEq

/-- Embeds `ValidationSummary`. -/
structure ValidationSummary where
  totalPackages : Nat
  newPackages : Nat
  modifiedPackages : Nat
  violations : Nat
  executionTimeMs : Int
  deriving DecidableEq

/-- Embeds `ValidationResult`. -/
structure ValidationResult where
  success : Bool
  violations : List PackageViolation
  summary : ValidationSummary
  deriving DecidableEq

/-! ## Trusted-pattern matching (PackageValidator constructor and
`isTrustedPackage`, src/core/validator.ts) -/

/-- Tokens of the regex the constructor builds from a wildcard pattern:
`new RegExp('^' + pattern.replace(/\x2a/g, '.' + '\x2a') + '$')`.  Every
`'*'` becomes the regex `.*` (`RTok.star`); a literal `'.'` in the
pattern stays a regex `.` and therefore matches any single character
(`RTok.any`); every other character of the patterns in scope is a
regex-ordinary character and matches itself (`RTok.lit`).  Regex
metacharacters other than `'.'` (such as `'+'` or `'('`) are not
modelled; no theorem below uses patterns containing them. -/
inductive RTok where
  | lit (c : Char)
  | any
  | star
  deriving DecidableEq

/-- Compiles a trusted pattern to the token reading of the regex the
constructor builds for it. -/
def compilePattern (pattern : Str) : List RTok :=
  pattern.map (fun c => if c = '*' then .star else if c = '.' then .any else .lit c)

/-- Anchored matching of the compiled regex against a whole name
(semantics of `regex.test(name)` for the `^...$`-anchored regexes the
constructor builds). -/
def rmatch : List RTok → Str → Bool
  | [], [] => true
  | [], _ :: _ => false
  | .lit _ :: _, [] => false
  | .lit c :: ts, x :: xs => (c = x) && rmatch ts xs
  | .any :: _, [] => false
  | .any :: ts, _ :: xs => rmatch ts xs
  | .star :: ts, s =>
    rmatch ts s ||
      (match s with
       | [] => false
       | _ :: xs => rmatch (.star :: ts) xs)
termination_by ts s => (ts.length, s.length)

/-- Embeds the `trustedPatternsCache` built once in the
`PackageValidator` constructor: the patterns containing `'*'`, each
paired with its compiled regex. -/
def trustedPatternsCache (trustedPackages : List Str) : List (Str × List RTok) :=
  (trustedPackages.filter (fun pattern => pattern.contains '*')).map
    (fun pattern => (pattern, compilePattern pattern))

/-- Embeds `PackageValidator.isTrustedPackage`: some configured pattern
matches — via the cached compiled regex when the pattern contains
`'*'` (an uncached pattern matches nothing), by string equality
otherwise. -/
def isTrustedPackage (trustedPackages : List Str) (cache : List (Str × List RTok))
    (packageName : Str) : Bool :=
  trustedPackages.any (fun pattern =>
    if pattern.contains '*' then
      match assocGet cache pattern with
      | some regex => rmatch regex packageName
      | none => false
    else packageName == pattern)

/-- Modelled from the spec: matching a trusted pattern as a glob in
which `'*'` stands for any (possibly empty) substring and every other
pattern character is matched literally (the reading asserted by the
claim, to be compared with the regex semantics above). -/
def globMatch : Str → Str → Bool
  | [], s => s.isEmpty
  | c :: ps, s =>
    if c = '*' then
      globMatch ps s ||
        (match s with
         | [] => false
         | _ :: xs => globMatch (c :: ps) xs)
    else
      match s with
      | [] => false
      | x :: xs => (c = x) && globMatch ps xs
termination_by p s => (p.length, s.length)

/-! ## Age validation and result construction (PackageValidator) -/

/-- Embeds `(now.getTime() - publishDate.getTime()) / (1000 * 60 * 60)`
over exact rationals. -/
def ageInHours (now publishDate : Int) : ℚ :=
  ((now - publishDate : ℤ) : ℚ) / (1000 * 60 * 60)

/-- Embeds `parseFloat(x.toFixed(1))`: rounding to one decimal place
(nearest, ties toward positive infinity, matching `toFixed`). -/
def toFixed1 (q : ℚ) : ℚ := ((round (q * 10) : ℤ) : ℚ) / 10

/-- The violation record pushed by `validatePackageAges` for a
too-young package. -/
def violationOf (now : Int) (pkg : PackageInfo) (publishDate : Int) : PackageViolation :=
  ⟨pkg.name, pkg.version, pkg.parent, publishDate, toFixed1 (ageInHours now publishDate)⟩

/-- Embeds `PackageValidator.validatePackageAges`: for each candidate
whose key resolves in the publish-date map, push a violation when
`ageInHours >= minimumAgeHours` fails; candidates with no resolved
date are skipped. -/
def validatePackageAges (minimumAgeHours : ℚ) (now : Int)
    (packages : List PackageInfo) (publishDates : Str → Option Int) :
    List PackageViolation :=
  packages.filterMap (fun pkg =>
    match publishDates (PackageFormatter.fromPackageInfo pkg) with
    | some publishDate =>
      if minimumAgeHours ≤ ageInHours now publishDate then none
      else some (violationOf now pkg publishDate)
    | none => none)

/-- Embeds `PackageValidator.createResult`. -/
def createResult (success : Bool) (violations : List PackageViolation)
    (allPackages : List PackageInfo) (executionTime : Int) : ValidationResult :=
  ⟨success, violations,
    ⟨allPackages.length,
     (allPackages.filter (fun p => p.isNew)).length,
     (allPackages.filter (fun p => !p.isNew)).length,
     violations.length,
     executionTime⟩⟩

/-- Observable outcome of one `validate()` call: the returned result,
whether the registry client was invoked, and the package strings
passed to it (`[]` on the short-circuit paths). -/
structure ValidateOutcome where
  result : ValidationResult
  registryCalled : Bool
  registryKeys : List Str
  deriving DecidableEq

/-- Embeds `PackageValidator.validate` downstream of the differ: the
candidate list stands for `differ.getModifiedPackages().modified` and
`publishDates` for lookups in the map returned by the registry client.
Mirrors the two short-circuits (no candidates, all trusted) and the
final `createResult` calls. -/
def validate (trustedPackages : List Str) (minimumAgeHours : ℚ) (now : Int)
    (modifiedPackages : List PackageInfo) (publishDates : Str → Option Int)
    (totalTime : Int) : ValidateOutcome :=
  if modifiedPackages.length = 0 then
    ⟨createResult true [] modifiedPackages 0, false, []⟩
  else
    let cache := trustedPatternsCache trustedPackages
    let packagesToValidate :=
      modifiedPackages.filter (fun pkg => !isTrustedPackage trustedPackages cache pkg.name)
    if packagesToValidate.length = 0 then
      ⟨createResult true [] modifiedPackages 0, false, []⟩
    else
      let packageStrings := packagesToValidate.map PackageFormatter.fromPackageInfo
      let violations := validatePackageAges minimumAgeHours now packagesToValidate publishDates
      if 0 < violations.length then
        ⟨createResult false violations modifiedPackages totalTime, true, packageStrings⟩
      else
        ⟨createResult true violations modifiedPackages totalTime, true, packageStrings⟩

/-! ## PackageLockDiffer (src/core/differ.ts)

The filesystem and git are abstracted as oracles in `DifferEnv`:
`readLockfile` is the outcome of `fs.readFileSync('package-lock.json')`
(`Except.error` = the thrown exception's message), `headContent` is
`GitHelper.getPackageLockFromHead()` (`none` = no committed version),
and `parseJson` is the `JSON.parse` oracle for lockfile text
(`Except.error` = the thrown SyntaxError's message). -/

/-- Embeds the `PackageLockPackage` interface. -/
structure PackageLockPackage where
  version : Option Str
  dependencies : List (Str × Str)
  devDependencies : List (Str × Str)
  deriving DecidableEq

/-- Embeds the `PackageLockData` interface (`packages` maps an
installation path to its package record, in object insertion order). -/
structure PackageLockData where
  packages : List (Str × PackageLockPackage)
  deriving DecidableEq

/-- Embeds `GitDiffResult` from src/types.ts. -/
structure GitDiffResult where
  modified : List PackageInfo
  isNewFile : Bool
  changedFiles : List Str
  deriving DecidableEq

/-- Oracle bundle for one differ invocation. -/
structure DifferEnv where
  isGitRepository : Bool
  hasPackageLockChanges : Bool
  readLockfile : Except Str Str
  headContent : Option Str
  parseJson : Str → Except Str PackageLockData

/-- Embeds `version.replace(/[\x5e~]/, '')`: remove the first caret or
tilde (the regex has no global flag, so only the first occurrence). -/
def stripRange : Str → Str
  | [] => []
  | c :: cs => if c = '^' ∨ c = '~' then cs else c :: stripRange cs

/-- Embeds `lockData.packages?.[''] || {}`. -/
def rootPackage (lockData : PackageLockData) : PackageLockPackage :=
  (assocGet lockData.packages (strOf "")).getD ⟨none, [], []⟩

/-- Embeds `PackageLockDiffer.extractDirectDependencies`. -/
def extractDirectDependencies (lockData : PackageLockData) : List PackageInfo :=
  let root := rootPackage lockData
  root.dependencies.map
      (fun nv => ⟨nv.1, stripRange nv.2, strOf "root (dependency)", true⟩) ++
    root.devDependencies.map
      (fun nv => ⟨nv.1, stripRange nv.2, strOf "root (devDependency)", true⟩)

/-- Semantics of the JavaScript `s.replace(needle, '')` for a plain
nonempty string needle: remove the first occurrence, if any. -/
def removeFirstSeq (needle : Str) : Str → Str
  | [] => []
  | c :: cs =>
    if needle.isPrefixOf (c :: cs) then (c :: cs).drop needle.length
    else c :: removeFirstSeq needle cs

/-- Semantics of the JavaScript `s.split(needle)` for a plain needle
`n0 :: ntail` (nonempty by construction): split at each left-to-right
non-overlapping occurrence. -/
def splitSeq (n0 : Char) (ntail : Str) : Str → List Str
  | [] => [[]]
  | c :: cs =>
    if (n0 :: ntail).isPrefixOf (c :: cs) then
      [] :: splitSeq n0 ntail ((c :: cs).drop (n0 :: ntail).length)
    else
      match splitSeq n0 ntail cs with
      | [] => [[c]]
      | p :: ps => (c :: p) :: ps
termination_by s => s.length
decreasing_by
  · simp only [List.length_drop, List.length_cons]
    omega
  · simp only [List.length_cons]
    omega

/-- Embeds `PackageLockDiffer.extractPackageName`: strip the first
`'node_modules/'`, split on `'/node_modules/'`, take the last
segment. -/
def extractPackageName (packagePath : Str) : Str :=
  let cleanPath := removeFirstSeq (strOf "node_modules/") packagePath
  let segments := splitSeq '/' (strOf "node_modules/") cleanPath
  segments.getLastD []

/-- Embeds `PackageLockDiffer.inferParent`. -/
def inferParent (packagePath : Str) : Str :=
  let segments := splitSeq '/' (strOf "node_modules/") packagePath
  if 2 < segments.length then segments.getD (segments.length - 2) []
  else strOf "root"

/-- Embeds `PackageLockDiffer.buildParentMap`: seed the root's
dependencies and devDependencies (a later `Map.set` overwrites, which
prepending models), then assign each transitive dependency its first
parent found (`set` guarded by `has`). -/
def buildParentMap (lockData : PackageLockData) : List (Str × Str) :=
  let root := rootPackage lockData
  let m1 := root.dependencies.foldl
    (fun m nv => (nv.1, strOf "root (dependency)") :: m) []
  let m2 := root.devDependencies.foldl
    (fun m nv => (nv.1, strOf "root (devDependency)") :: m) m1
  lockData.packages.foldl
    (fun m entry =>
      if entry.1 = strOf "" then m
      else
        let parentName := extractPackageName entry.1
        entry.2.dependencies.foldl
          (fun m2 dep =>
            if (assocGet m2 dep.1).isSome then m2 else (dep.1, parentName) :: m2)
          m)
    m2

/-- Embeds `PackageLockDiffer.computePackageDiff`: a non-root package
is modified when absent from the old lockfile or its version changed;
it is emitted only when its version is truthy, with the parent-map
entry (falling back to `inferParent` when missing or falsy) and
`isNew` exactly when it was absent before. -/
def computePackageDiff (oldLock newLock : PackageLockData) : List PackageInfo :=
  let parentMap := buildParentMap newLock
  newLock.packages.filterMap (fun entry =>
    if entry.1 = strOf "" then none
    else
      let oldPackageInfo := assocGet oldLock.packages entry.1
      let hasChanged :=
        match oldPackageInfo with
        | none => true
        | some old => decide (old.version ≠ entry.2.version)
      match entry.2.version with
      | none => none
      | some v =>
        if hasChanged && !v.isEmpty then
          let packageName := extractPackageName entry.1
          let parent :=
            match assocGet parentMap packageName with
            | some p => if p = [] then inferParent entry.1 else p
            | none => inferParent entry.1
          some ⟨packageName, v, parent, oldPackageInfo.isNone⟩
        else none)

/-- Embeds `PackageLockDiffer.analyzeAllPackages`: its own
`try/catch` swallows read/parse failures and returns the empty result;
otherwise it extracts the direct dependencies as new packages. -/
def analyzeAllPackages (env : DifferEnv) : GitDiffResult :=
  match env.readLockfile with
  | .error _ => ⟨[], false, []⟩
  | .ok content =>
    match env.parseJson content with
    | .error _ => ⟨[], false, []⟩
    | .ok currentLock =>
      ⟨extractDirectDependencies currentLock, true, [strOf "package-lock.json"]⟩

/-- The wrapped message of the differ's outer catch:
``Error analyzing package-lock.json changes: ${message}``. -/
def errorContext (message : Str) : Str :=
  strOf "Error analyzing package-lock.json changes: " ++ message

/-- Embeds `PackageLockDiffer.getModifiedPackages` including its outer
`try/catch` (`Except.error` = the wrapped rethrown error). -/
def getModifiedPackages (env : DifferEnv) : Except Str GitDiffResult :=
  if !env.isGitRepository then .ok (analyzeAllPackages env)
  else if !env.hasPackageLockChanges then .ok ⟨[], false, []⟩
  else
    match env.readLockfile with
    | .error e => .error (errorContext e)
    | .ok currentContent =>
      match env.headContent with
      | none =>
        match env.parseJson currentContent with
        | .error e => .error (errorContext e)
        | .ok currentLock =>
          .ok ⟨extractDirectDependencies currentLock, true, [strOf "package-lock.json"]⟩
      | some headText =>
        match env.parseJson currentContent with
        | .error e => .error (errorContext e)
        | .ok currentLock =>
          match env.parseJson headText with
          | .error e => .error (errorContext e)
          | .ok headLock =>
            .ok ⟨computePackageDiff headLock currentLock, false, [strOf "package-lock.json"]⟩

/-! ## Lemmas about the string helpers and package keys -/

theorem splitChar_ne_nil (sep : Char) (s : Str) : splitChar sep s ≠ [] := by
  cases s with
  | nil => simp [splitChar]
  | cons c cs =>
    simp only [splitChar]
    split
    · simp
    · split <;> simp

theorem joinChar_splitChar (sep : Char) (s : Str) :
    joinChar sep (splitChar sep s) = s := by
  induction s with
  | nil => rfl
  | cons c cs ih =>
    simp only [splitChar]
    split
    · rename_i hc
      cases h : splitChar sep cs with
      | nil => exact absurd h (splitChar_ne_nil sep cs)
      | cons p ps =>
        rw [h] at ih
        simp [joinChar, hc, ← ih]
    · cases h : splitChar sep cs with
      | nil => exact absurd h (splitChar_ne_nil sep cs)
      | cons p ps =>
        rw [h] at ih
        cases ps with
        | nil => simp [joinChar] at ih ⊢; exact ih
        | cons q qs => simp [joinChar] at ih ⊢; rw [ih]

/-- Splitting distributes over an explicit separator occurrence. -/
theorem splitChar_append_sep (sep : Char) (a b : Str) :
    splitChar sep (a ++ sep :: b) = splitChar sep a ++ splitChar sep b := by
  induction a with
  | nil => simp [splitChar]
  | cons c cs ih =>
    by_cases hc : c = sep
    · simp [splitChar, hc, ih]
    · simp only [List.cons_append, splitChar, if_neg hc]
      cases h : splitChar sep cs with
      | nil => exact absurd h (splitChar_ne_nil sep cs)
      | cons p ps => rw [List.append_eq, ih, h]; simp

/-- A string without the separator splits into itself alone. -/
theorem splitChar_eq_single (sep : Char) (s : Str) (h : sep ∉ s) :
    splitChar sep s = [s] := by
  induction s with
  | nil => rfl
  | cons c cs ih =>
    simp only [List.mem_cons, not_or] at h
    have hc : ¬c = sep := fun hh => h.1 hh.symm
    simp only [splitChar, if_neg hc, ih h.2]

/-- Each segment produced by `splitChar` is free of the separator. -/
theorem splitChar_not_mem (sep : Char) (s : Str) :
    ∀ p ∈ splitChar sep s, sep ∉ p := by
  induction s with
  | nil => intro p hp; simp [splitChar] at hp; simp [hp]
  | cons c cs ih =>
    intro p hp
    simp only [splitChar] at hp
    split at hp
    · rcases List.mem_cons.mp hp with h | h
      · simp [h]
      · exact ih p h
    · rename_i hc
      cases h : splitChar sep cs with
      | nil => exact absurd h (splitChar_ne_nil sep cs)
      | cons q qs =>
        rw [h] at hp
        rcases List.mem_cons.mp hp with h2 | h2
        · subst h2
          intro hm
          rcases List.mem_cons.mp hm with h3 | h3
          · exact hc h3.symm
          · exact ih q (h ▸ List.mem_cons_self q qs) h3
        · exact ih p (h ▸ List.mem_cons_of_mem q h2)

theorem two_le_splitChar_length_iff (sep : Char) (s : Str) :
    2 ≤ (splitChar sep s).length ↔ sep ∈ s := by
  constructor
  · intro h
    by_contra hm
    rw [splitChar_eq_single sep s hm] at h
    simp at h
  · intro hm
    rcases List.append_of_mem hm with ⟨a, b, rfl⟩
    rw [splitChar_append_sep]
    have h1 := splitChar_ne_nil sep a
    have h2 := splitChar_ne_nil sep b
    rw [List.length_append]
    have l1 : 1 ≤ (splitChar sep a).length := List.length_pos.mpr h1
    have l2 : 1 ≤ (splitChar sep b).length := List.length_pos.mpr h2
    omega

/-- On a string with no `'@'`, the version defaults to `latest`. -/
theorem parsePkg_no_at (pkg : Str) (h : '@' ∉ pkg) :
    parsePkg pkg = (pkg, strOf "latest") := by
  have := (two_le_splitChar_length_iff '@' pkg).not.mpr h
  simp only [parsePkg, if_neg this]

/-- Parsing a well-formed `name@version` key (version free of `'@'`)
recovers the name and version: the split happens at the last `'@'`. -/
theorem parsePkg_toKey (n v : Str) (hv : '@' ∉ v) :
    parsePkg (PackageFormatter.toKey n v) = (n, v) := by
  unfold PackageFormatter.toKey parsePkg
  rw [splitChar_append_sep, splitChar_eq_single '@' v hv]
  have hlen : 2 ≤ (splitChar '@' n ++ [v]).length := by
    have := List.length_pos.mpr (splitChar_ne_nil '@' n)
    rw [List.length_append]; simp; omega
  simp only [if_pos hlen, List.dropLast_concat, List.getLastD_concat]
  rw [joinChar_splitChar]

/-- The version component produced by `parsePkg` never contains `'@'`. -/
theorem parsePkg_snd_no_at (pkg : Str) : '@' ∉ (parsePkg pkg).2 := by
  simp only [parsePkg]
  split
  · rename_i h
    simp only
    have hne := splitChar_ne_nil '@' pkg
    cases hsp : splitChar '@' pkg with
    | nil => exact absurd hsp hne
    | cons p ps =>
      have : (p :: ps).getLastD [] = (p :: ps).getLast (by simp) := by
        rw [List.getLastD_eq_getLast?]
        rw [List.getLast?_eq_getLast (p :: ps) (by simp)]
        rfl
      rw [this]
      have hmem : (p :: ps).getLast (by simp) ∈ p :: ps := List.getLast_mem _
      have hall := splitChar_not_mem '@' pkg
      rw [hsp] at hall
      exact hall _ hmem
  · simp only
    intro hm
    rw [strOf] at hm
    simp at hm

/-- Rebuilding the cache key from a parsed package string returns the
input whenever the input contains an `'@'` (the `parts.length >= 2`
branch), so such inputs are cached under themselves. -/
theorem toKey_parsePkg (pkg : Str) (h : '@' ∈ pkg) :
    PackageFormatter.toKey (parsePkg pkg).1 (parsePkg pkg).2 = pkg := by
  have hlen : 2 ≤ (splitChar '@' pkg).length :=
    (two_le_splitChar_length_iff '@' pkg).mpr h
  unfold parsePkg PackageFormatter.toKey
  rw [if_pos hlen]
  simp only
  have hne := splitChar_ne_nil '@' pkg
  have hdecomp := List.dropLast_append_getLast hne
  have hdne : (splitChar '@' pkg).dropLast ≠ [] := by
    intro hh
    have := List.length_dropLast (splitChar '@' pkg)
    rw [hh] at this
    simp at this
    omega
  have hjoin : ∀ (l : List Str) (x : Str), l ≠ [] →
      joinChar '@' (l ++ [x]) = joinChar '@' l ++ '@' :: x := by
    intro l x hl
    induction l with
    | nil => exact absurd rfl hl
    | cons a as ih =>
      cases as with
      | nil => simp [joinChar]
      | cons b bs =>
        have h2 := ih (by simp)
        simp only [joinChar, List.cons_append, List.append_eq] at h2 ⊢
        rw [h2]
        simp
  have hgd : (splitChar '@' pkg).getLastD [] = (splitChar '@' pkg).getLast hne := by
    rw [List.getLastD_eq_getLast?, List.getLast?_eq_getLast _ hne]
    rfl
  rw [hgd, ← hjoin _ _ hdne, hdecomp, joinChar_splitChar]

/-- Parsing is idempotent through the cache key: the `(name, version)`
pair written to the cache determines the key, and re-parsing the key
recovers the pair. -/
theorem parsePkg_key_stable (pkg : Str) :
    parsePkg (PackageFormatter.toKey (parsePkg pkg).1 (parsePkg pkg).2) = parsePkg pkg := by
  rw [parsePkg_toKey _ _ (parsePkg_snd_no_at pkg)]

/-! ## Lemmas about `createBatches` -/

theorem createBatches_nil {α : Type} (c : Nat) : createBatches ([] : List α) c = [] := by
  rw [createBatches]

theorem createBatches_cons {α : Type} (a : α) (l : List α) (c : Nat) (hc : 0 < c) :
    createBatches (a :: l) c =
      (a :: l).take c :: createBatches ((a :: l).drop c) c := by
  rw [createBatches, dif_neg (Nat.pos_iff_ne_zero.mp hc)]

theorem createBatches_join {α : Type} (c : Nat) (hc : 0 < c) :
    ∀ l : List α, (createBatches l c).join = l := by
  have main : ∀ n : Nat, ∀ l : List α, l.length = n →
      (createBatches l c).join = l := by
    intro n
    induction n using Nat.strong_induction_on with
    | _ n ih =>
    intro l hn
    cases l with
    | nil => simp [createBatches_nil]
    | cons a as =>
      subst hn
      rw [createBatches_cons a as c hc]
      have hih := ih ((a :: as).drop c).length (by simp [List.length_drop]; omega)
        ((a :: as).drop c) rfl
      calc (List.take c (a :: as) :: createBatches ((a :: as).drop c) c).join
          = List.take c (a :: as) ++ (createBatches ((a :: as).drop c) c).join := rfl
        _ = List.take c (a :: as) ++ (a :: as).drop c := by rw [hih]
        _ = a :: as := List.take_append_drop c (a :: as)
  exact fun l => main l.length l rfl

theorem createBatches_eq_nil_iff {α : Type} (l : List α) (c : Nat) (hc : 0 < c) :
    createBatches l c = [] ↔ l = [] := by
  cases l with
  | nil => simp [createBatches_nil]
  | cons a as => rw [createBatches_cons a as c hc]; simp

theorem createBatches_length {α : Type} (c : Nat) (hc : 0 < c) :
    ∀ l : List α, (createBatches l c).length = (l.length + c - 1) / c := by
  have main : ∀ n : Nat, ∀ l : List α, l.length = n →
      (createBatches l c).length = (l.length + c - 1) / c := by
    intro n
    induction n using Nat.strong_induction_on with
    | _ n ih =>
    intro l hn
    cases l with
    | nil =>
      rw [createBatches_nil]
      have h0 : (([] : List α).length + c - 1) / c = 0 :=
        Nat.div_eq_of_lt (by simp; omega)
      rw [h0]
      rfl
    | cons a as =>
      subst hn
      rw [createBatches_cons a as c hc, List.length_cons]
      rw [ih ((a :: as).drop c).length (by simp [List.length_drop]; omega) _ rfl]
      rw [List.length_drop, List.length_cons]
      rcases Nat.lt_or_ge (as.length + 1) c with hlt | hge
      · have h1 : as.length + 1 - c = 0 := by omega
        rw [h1]
        have h2 : (0 + c - 1) / c = 0 := Nat.div_eq_of_lt (by omega)
        have h3 : (as.length + 1 + c - 1) / c = 1 := by
          have hx : as.length + 1 + c - 1 = as.length + c := by omega
          rw [hx, Nat.add_div_right _ hc, Nat.div_eq_of_lt (by omega)]
        omega
      · have h1 : as.length + 1 - c + c - 1 = as.length + 1 - 1 := by omega
        have h2 : as.length + 1 + c - 1 = (as.length + 1 - 1) + c := by omega
        rw [h1, h2, Nat.add_div_right _ hc]
  exact fun l => main l.length l rfl

theorem createBatches_size_le {α : Type} (c : Nat) (hc : 0 < c) :
    ∀ (l : List α), ∀ b ∈ createBatches l c, 0 < b.length ∧ b.length ≤ c := by
  have main : ∀ n : Nat, ∀ l : List α, l.length = n →
      ∀ b ∈ createBatches l c, 0 < b.length ∧ b.length ≤ c := by
    intro n
    induction n using Nat.strong_induction_on with
    | _ n ih =>
    intro l hn
    cases l with
    | nil => rw [createBatches_nil]; simp
    | cons a as =>
      subst hn
      rw [createBatches_cons a as c hc]
      intro b hb
      rcases List.mem_cons.mp hb with h | h
      · subst h
        constructor
        · simp [List.length_take]; omega
        · simp [List.length_take]
      · exact ih ((a :: as).drop c).length (by simp [List.length_drop]; omega) _ rfl b h
  exact fun l => main l.length l rfl

theorem createBatches_dropLast_size {α : Type} (c : Nat) (hc : 0 < c) :
    ∀ (l : List α), ∀ b ∈ (createBatches l c).dropLast, b.length = c := by
  have main : ∀ n : Nat, ∀ l : List α, l.length = n →
      ∀ b ∈ (createBatches l c).dropLast, b.length = c := by
    intro n
    induction n using Nat.strong_induction_on with
    | _ n ih =>
    intro l hn
    cases l with
    | nil => rw [createBatches_nil]; simp
    | cons a as =>
      subst hn
      rw [createBatches_cons a as c hc]
      intro b hb
      cases hrest : createBatches ((a :: as).drop c) c with
      | nil => rw [hrest] at hb; simp at hb
      | cons r rs =>
        rw [hrest] at hb
        rw [List.dropLast_cons_of_ne_nil (by simp)] at hb
        rcases List.mem_cons.mp hb with h | h
        · subst h
          have hdrop : (a :: as).drop c ≠ [] := by
            intro hh
            rw [hh, createBatches_nil] at hrest
            exact absurd hrest.symm (by simp)
          have : c < (a :: as).length := by
            by_contra hcc
            push_neg at hcc
            exact hdrop (List.drop_eq_nil_of_le hcc)
          simp only [List.length_cons] at this
          simp [List.length_take]
          omega
        · exact ih ((a :: as).drop c).length (by simp [List.length_drop]; omega) _ rfl b
            (hrest ▸ h)
  exact fun l => main l.length l rfl

/-! ## Lemmas about the validator -/

theorem list_any_congr {α : Type} (f g : α → Bool) (l : List α)
    (h : ∀ x ∈ l, f x = g x) : l.any f = l.any g := by
  induction l with
  | nil => rfl
  | cons a as ih =>
    simp only [List.any_cons, h a (List.mem_cons_self a as)]
    rw [ih (fun x hx => h x (List.mem_cons_of_mem a hx))]

theorem length_filter_partition {α : Type} (p : α → Bool) (l : List α) :
    (l.filter p).length + (l.filter (fun x => !p x)).length = l.length := by
  induction l with
  | nil => rfl
  | cons a l ih =>
    by_cases h : p a <;> simp [List.filter, h, ← ih] <;> omega

/-- Membership in the violation list of `validatePackageAges` is exactly
a resolvable candidate whose age is strictly below the minimum. -/
theorem validatePackageAges_mem (minimumAgeHours : ℚ) (now : Int)
    (packages : List PackageInfo) (publishDates : Str → Option Int)
    (v : PackageViolation) :
    v ∈ validatePackageAges minimumAgeHours now packages publishDates ↔
      ∃ pkg ∈ packages, ∃ publishDate,
        publishDates (PackageFormatter.fromPackageInfo pkg) = some publishDate ∧
        ageInHours now publishDate < minimumAgeHours ∧
        v = violationOf now pkg publishDate := by
  unfold validatePackageAges
  rw [List.mem_filterMap]
  constructor
  · rintro ⟨pkg, hmem, hf⟩
    refine ⟨pkg, hmem, ?_⟩
    cases hd : publishDates (PackageFormatter.fromPackageInfo pkg) with
    | none => rw [hd] at hf; simp at hf
    | some pd =>
      rw [hd] at hf
      dsimp only at hf
      by_cases hage : minimumAgeHours ≤ ageInHours now pd
      · rw [if_pos hage] at hf; simp at hf
      · rw [if_neg hage] at hf
        simp only [Option.some.injEq] at hf
        exact ⟨pd, rfl, lt_of_not_le hage, hf.symm⟩
  · rintro ⟨pkg, hmem, pd, hd, hage, rfl⟩
    exact ⟨pkg, hmem, by rw [hd]; dsimp only; rw [if_neg (not_le_of_lt hage)]⟩

/-- The violations returned by `validate` are those of
`validatePackageAges` over the non-trusted candidates. -/
theorem validate_violations_eq (trustedPackages : List Str) (minimumAgeHours : ℚ)
    (now : Int) (modifiedPackages : List PackageInfo)
    (publishDates : Str → Option Int) (totalTime : Int) :
    (validate trustedPackages minimumAgeHours now modifiedPackages publishDates
        totalTime).result.violations =
      validatePackageAges minimumAgeHours now
        (modifiedPackages.filter (fun pkg =>
          !isTrustedPackage trustedPackages (trustedPatternsCache trustedPackages) pkg.name))
        publishDates := by
  simp only [validate]
  split
  · rename_i h
    have h0 : modifiedPackages = [] := List.length_eq_zero.mp h
    subst h0
    simp [createResult, validatePackageAges]
  · split
    · rename_i h2
      rw [List.length_eq_zero.mp h2]
      simp [createResult, validatePackageAges]
    · split <;> simp [createResult]

/-- The keys handed to the registry client by `validate` are exactly the
formatted non-trusted candidates. -/
theorem validate_registryKeys_eq (trustedPackages : List Str) (minimumAgeHours : ℚ)
    (now : Int) (modifiedPackages : List PackageInfo)
    (publishDates : Str → Option Int) (totalTime : Int) :
    (validate trustedPackages minimumAgeHours now modifiedPackages publishDates
        totalTime).registryKeys =
      (modifiedPackages.filter (fun pkg =>
        !isTrustedPackage trustedPackages (trustedPatternsCache trustedPackages) pkg.name)).map
        PackageFormatter.fromPackageInfo := by
  simp only [validate]
  split
  · rename_i h
    rw [List.length_eq_zero.mp h]
    simp
  · split
    · rename_i h2
      rw [List.length_eq_zero.mp h2]
      simp
    · split <;> simp

theorem isEmpty_eq_false_of_length_pos {α : Type} (l : List α) (h : 0 < l.length) :
    l.isEmpty = false := by
  cases l with
  | nil => simp at h
  | cons a as => rfl

theorem eq_nil_of_not_length_pos {α : Type} (l : List α) (h : ¬0 < l.length) :
    l = [] := by
  cases l with
  | nil => rfl
  | cons a as => simp at h

/-- C1: for every non-trusted candidate whose publish date was
resolved, `validate` reports it as a violation exactly when its age in
hours is strictly below `minimumAgeHours` (so a candidate exactly at
the threshold is not a violation), and every violation records
`ageInHours` rounded to one decimal place. -/
theorem validate_violation_iff_age_below_minimum
    (trustedPackages : List Str) (minimumAgeHours : ℚ) (now : Int)
    (modifiedPackages : List PackageInfo) (publishDates : Str → Option Int)
    (totalTime : Int) (v : PackageViolation) :
    (v ∈ (validate trustedPackages minimumAgeHours now modifiedPackages
        publishDates totalTime).result.violations ↔
      ∃ pkg ∈ modifiedPackages,
        isTrustedPackage trustedPackages (trustedPatternsCache trustedPackages)
            pkg.name = false ∧
        ∃ publishDate,
          publishDates (PackageFormatter.fromPackageInfo pkg) = some publishDate ∧
          ageInHours now publishDate < minimumAgeHours ∧
          v = violationOf now pkg publishDate) ∧
    (∀ pkg publishDate,
      (violationOf now pkg publishDate).ageInHours =
        toFixed1 (ageInHours now publishDate)) := by
  constructor
  · rw [validate_violations_eq, validatePackageAges_mem]
    constructor
    · rintro ⟨pkg, hmem, rest⟩
      rw [List.mem_filter] at hmem
      exact ⟨pkg, hmem.1, by simpa using hmem.2, rest⟩
    · rintro ⟨pkg, hmem, htru, rest⟩
      exact ⟨pkg, List.mem_filter.mpr ⟨hmem, by simp [htru]⟩, rest⟩
  · intro pkg publishDate
    rfl

/-- C9: `validate`'s result satisfies the summary invariants: success
iff the violation list is empty, `summary.violations` is its length,
`summary.totalPackages` counts all diffed candidates (trusted
included), and `newPackages`/`modifiedPackages` partition the total by
the `isNew` flag. -/
theorem validate_result_summary_invariants
    (trustedPackages : List Str) (minimumAgeHours : ℚ) (now : Int)
    (modifiedPackages : List PackageInfo) (publishDates : Str → Option Int)
    (totalTime : Int) :
    ((validate trustedPackages minimumAgeHours now modifiedPackages publishDates
        totalTime).result.success =
      (validate trustedPackages minimumAgeHours now modifiedPackages publishDates
        totalTime).result.violations.isEmpty) ∧
    ((validate trustedPackages minimumAgeHours now modifiedPackages publishDates
        totalTime).result.summary.violations =
      (validate trustedPackages minimumAgeHours now modifiedPackages publishDates
        totalTime).result.violations.length) ∧
    ((validate trustedPackages minimumAgeHours now modifiedPackages publishDates
        totalTime).result.summary.totalPackages = modifiedPackages.length) ∧
    ((validate trustedPackages minimumAgeHours now modifiedPackages publishDates
        totalTime).result.summary.newPackages =
      (modifiedPackages.filter (fun p => p.isNew)).length) ∧
    ((validate trustedPackages minimumAgeHours now modifiedPackages publishDates
        totalTime).result.summary.modifiedPackages =
      (modifiedPackages.filter (fun p => !p.isNew)).length) ∧
    ((validate trustedPackages minimumAgeHours now modifiedPackages publishDates
        totalTime).result.summary.newPackages +
      (validate trustedPackages minimumAgeHours now modifiedPackages publishDates
        totalTime).result.summary.modifiedPackages =
      (validate trustedPackages minimumAgeHours now modifiedPackages publishDates
        totalTime).result.summary.totalPackages) := by
  have hpart :=
    length_filter_partition (fun p : PackageInfo => p.isNew) modifiedPackages
  refine ⟨?_, ?_, ?_, ?_, ?_, ?_⟩
  · simp only [validate]
    split
    · rfl
    · split
      · rfl
      · split
        · rename_i hv
          simp only [createResult]
          exact (isEmpty_eq_false_of_length_pos _ hv).symm
        · rename_i hv
          simp only [createResult]
          rw [eq_nil_of_not_length_pos _ hv]
          rfl
  · simp only [validate]
    split
    · rfl
    · split
      · rfl
      · split <;> rfl
  · simp only [validate]
    split
    · rfl
    · split
      · rfl
      · split <;> rfl
  · simp only [validate]
    split
    · rfl
    · split
      · rfl
      · split <;> rfl
  · simp only [validate]
    split
    · rfl
    · split
      · rfl
      · split <;> rfl
  · simp only [validate]
    split
    · exact hpart
    · split
      · exact hpart
      · split <;> exact hpart

/-- C2: a candidate matching a trusted pattern never appears in the
violations, contributes no `name@version` key to the registry-client
call (stated both as the exact key-list equation and, under
key-injectivity of the candidate set, as non-membership of its key),
and when every candidate is trusted `validate` short-circuits to
success with no registry call. -/
theorem validate_trusted_exclusion
    (trustedPackages : List Str) (minimumAgeHours : ℚ) (now : Int)
    (modifiedPackages : List PackageInfo) (publishDates : Str → Option Int)
    (totalTime : Int) :
    (∀ v ∈ (validate trustedPackages minimumAgeHours now modifiedPackages
        publishDates totalTime).result.violations,
      isTrustedPackage trustedPackages (trustedPatternsCache trustedPackages)
        v.name = false) ∧
    ((validate trustedPackages minimumAgeHours now modifiedPackages publishDates
        totalTime).registryKeys =
      (modifiedPackages.filter (fun pkg =>
        !isTrustedPackage trustedPackages (trustedPatternsCache trustedPackages)
          pkg.name)).map PackageFormatter.fromPackageInfo) ∧
    (∀ pkg ∈ modifiedPackages,
      isTrustedPackage trustedPackages (trustedPatternsCache trustedPackages)
          pkg.name = true →
      (∀ q ∈ modifiedPackages,
        PackageFormatter.fromPackageInfo q = PackageFormatter.fromPackageInfo pkg →
          q.name = pkg.name) →
      PackageFormatter.fromPackageInfo pkg ∉
        (validate trustedPackages minimumAgeHours now modifiedPackages publishDates
          totalTime).registryKeys) ∧
    ((∀ pkg ∈ modifiedPackages,
        isTrustedPackage trustedPackages (trustedPatternsCache trustedPackages)
          pkg.name = true) →
      (validate trustedPackages minimumAgeHours now modifiedPackages publishDates
          totalTime).result.success = true ∧
      (validate trustedPackages minimumAgeHours now modifiedPackages publishDates
          totalTime).result.violations = [] ∧
      (validate trustedPackages minimumAgeHours now modifiedPackages publishDates
          totalTime).registryCalled = false ∧
      (validate trustedPackages minimumAgeHours now modifiedPackages publishDates
          totalTime).registryKeys = []) := by
  refine ⟨?_, validate_registryKeys_eq _ _ _ _ _ _, ?_, ?_⟩
  · intro v hv
    rw [validate_violations_eq, validatePackageAges_mem] at hv
    obtain ⟨pkg, hmem, pd, _, _, rfl⟩ := hv
    rw [List.mem_filter] at hmem
    simpa using hmem.2
  · intro pkg _hpkg htrust hinj hmemk
    rw [validate_registryKeys_eq] at hmemk
    rcases List.mem_map.mp hmemk with ⟨q, hq, hqk⟩
    rw [List.mem_filter] at hq
    have hq2 : isTrustedPackage trustedPackages (trustedPatternsCache trustedPackages)
        q.name = false := by simpa using hq.2
    rw [hinj q hq.1 hqk] at hq2
    rw [htrust] at hq2
    simp at hq2
  · intro hall
    have hfilt : modifiedPackages.filter (fun pkg =>
        !isTrustedPackage trustedPackages (trustedPatternsCache trustedPackages)
          pkg.name) = [] :=
      List.filter_eq_nil.mpr (fun pkg hm => by simp [hall pkg hm])
    simp only [validate]
    split
    · exact ⟨rfl, rfl, rfl, rfl⟩
    · split
      · exact ⟨rfl, rfl, rfl, rfl⟩
      · rename_i h2
        rw [hfilt] at h2
        simp at h2

/-- Witness for C2: a trusted `leftpad` candidate short-circuits
`validate` to success with no registry call. -/
theorem validate_trusted_exclusion_witness :
    (∀ pkg ∈ [PackageInfo.mk (strOf "leftpad") (strOf "1.0.0")
        (strOf "root (dependency)") true],
      isTrustedPackage [strOf "leftpad"] (trustedPatternsCache [strOf "leftpad"])
        pkg.name = true) ∧
    ((validate [strOf "leftpad"] 24 3600000
        [PackageInfo.mk (strOf "leftpad") (strOf "1.0.0")
          (strOf "root (dependency)") true]
        (fun _ => some 0) 0).result.success = true ∧
      (validate [strOf "leftpad"] 24 3600000
        [PackageInfo.mk (strOf "leftpad") (strOf "1.0.0")
          (strOf "root (dependency)") true]
        (fun _ => some 0) 0).result.violations = [] ∧
      (validate [strOf "leftpad"] 24 3600000
        [PackageInfo.mk (strOf "leftpad") (strOf "1.0.0")
          (strOf "root (dependency)") true]
        (fun _ => some 0) 0).registryCalled = false ∧
      (validate [strOf "leftpad"] 24 3600000
        [PackageInfo.mk (strOf "leftpad") (strOf "1.0.0")
          (strOf "root (dependency)") true]
        (fun _ => some 0) 0).registryKeys = []) :=
  ⟨by decide,
    (validate_trusted_exclusion [strOf "leftpad"] 24 3600000
      [PackageInfo.mk (strOf "leftpad") (strOf "1.0.0")
        (strOf "root (dependency)") true]
      (fun _ => some 0) 0).2.2.2 (by decide)⟩

/-! ## Lemmas about trusted-pattern matching -/

/-- Every wildcard pattern of the configuration is present in the
compiled-pattern cache with its compiled regex: the cache is built once
from the configuration and lookups never miss. -/
theorem trustedPatternsCache_lookup (trustedPackages : List Str) (pattern : Str)
    (hmem : pattern ∈ trustedPackages) (hstar : pattern.contains '*' = true) :
    assocGet (trustedPatternsCache trustedPackages) pattern =
      some (compilePattern pattern) := by
  unfold trustedPatternsCache
  induction trustedPackages with
  | nil => cases hmem
  | cons t ts ih =>
    rcases List.mem_cons.mp hmem with h | h
    · subst h
      rw [List.filter_cons_of_pos (by simpa using hstar)]
      simp [assocGet]
    · by_cases ht : t.contains '*'
      · rw [List.filter_cons_of_pos (by simpa using ht)]
        simp only [List.map_cons]
        by_cases hteq : t = pattern
        · subst hteq
          simp [assocGet]
        · simp only [assocGet, if_neg hteq]
          exact ih h
      · rw [List.filter_cons_of_neg (by simpa using ht)]
        exact ih h

/-- C6 (amended): `isTrustedPackage` with the constructor-built cache
matches a name against each pattern by the compiled regex semantics
when the pattern contains `'*'` (where `'*'` is `.*` but a `'.'` in the
pattern is the regex any-character, not a literal) and by string
equality otherwise; the cache lookup always finds the pattern compiled
once at construction. -/
theorem isTrustedPackage_eq_regex_semantics (trustedPackages : List Str)
    (packageName : Str) :
    isTrustedPackage trustedPackages (trustedPatternsCache trustedPackages)
        packageName =
      trustedPackages.any (fun pattern =>
        if pattern.contains '*' then rmatch (compilePattern pattern) packageName
        else packageName == pattern) := by
  unfold isTrustedPackage
  apply list_any_congr
  intro pattern hmem
  by_cases hstar : pattern.contains '*'
  · rw [if_pos hstar, if_pos hstar,
      trustedPatternsCache_lookup trustedPackages pattern hmem hstar]
  · rw [if_neg hstar, if_neg hstar]

/-- C6 (counterexample): with the configured pattern `a.c*`, the code
trusts the name `aXc` — the regex built from the pattern treats the
`'.'` as "any character" — whereas the glob reading of the claim
(every non-`'*'` character matched literally) rejects it. -/
theorem isTrustedPackage_dot_not_literal_counterexample :
    isTrustedPackage [strOf "a.c*"] (trustedPatternsCache [strOf "a.c*"])
        (strOf "aXc") = true ∧
    globMatch (strOf "a.c*") (strOf "aXc") = false := by
  constructor
  · simp [isTrustedPackage, trustedPatternsCache, compilePattern, assocGet,
      strOf, rmatch]
  · simp [globMatch, strOf]

/-! ## Lemmas about the retry loop -/

/-- When some attempt in range succeeds after straight failures, the
loop returns that attempt's date, having slept one backoff per failed
attempt. -/
theorem retryLoop_success (att : AttemptOracle) (retries : Nat) (d : Option Int) :
    ∀ (k attempt : Nat) (lastErr : Option Str), 1 ≤ attempt →
      attempt + k ≤ retries →
      att (attempt + k) = .ok d →
      (∀ i, attempt ≤ i → i < attempt + k → ∃ e, att i = .error e) →
      retryLoop att retries attempt lastErr =
        ⟨.ok d, (List.range' attempt k).map backoffDelay, k + 1⟩ := by
  intro k
  induction k with
  | zero =>
    intro attempt lastErr _h1 h2 hok _herr
    rw [retryLoop, dif_neg (by omega)]
    rw [show attempt + 0 = attempt from rfl] at hok
    rw [hok]
    simp [List.range']
  | succ k ih =>
    intro attempt lastErr h1 h2 hok herr
    rw [retryLoop, dif_neg (by omega)]
    obtain ⟨e, he⟩ := herr attempt (le_refl _) (by omega)
    rw [he]
    dsimp only
    rw [if_pos (by omega)]
    have hsz : attempt + (k + 1) = (attempt + 1) + k := by omega
    rw [hsz] at hok
    have hprev : ∀ i, attempt + 1 ≤ i → i < (attempt + 1) + k → ∃ e2, att i = .error e2 := by
      intro i hi1 hi2
      exact herr i (by omega) (by omega)
    rw [ih (attempt + 1) (some e) (by omega) (by omega) hok hprev]
    simp [List.range']

/-- When every attempt in range fails, the loop exhausts the budget and
throws the last error, having slept one backoff per non-final failed
attempt. -/
theorem retryLoop_allfail (att : AttemptOracle) (retries : Nat) :
    ∀ (k attempt : Nat) (lastErr : Option Str), 1 ≤ attempt →
      attempt + k = retries →
      (∀ i, attempt ≤ i → i ≤ retries → ∃ e, att i = .error e) →
      ∃ elast, att retries = .error elast ∧
        retryLoop att retries attempt lastErr =
          ⟨.error (some elast), (List.range' attempt k).map backoffDelay, k + 1⟩ := by
  intro k
  induction k with
  | zero =>
    intro attempt lastErr _h1 h2 herr
    obtain ⟨e, he⟩ := herr attempt (le_refl _) (by omega)
    have hra : retries = attempt := by omega
    refine ⟨e, by rw [hra]; exact he, ?_⟩
    rw [retryLoop, dif_neg (by omega)]
    rw [he]
    dsimp only
    rw [if_neg (by omega)]
    simp [List.range']
  | succ k ih =>
    intro attempt lastErr h1 h2 herr
    obtain ⟨e, he⟩ := herr attempt (le_refl _) (by omega)
    have hprev : ∀ i, attempt + 1 ≤ i → i ≤ retries → ∃ e2, att i = .error e2 := by
      intro i hi1 hi2
      exact herr i (by omega) hi2
    obtain ⟨elast, helast, hloop⟩ := ih (attempt + 1) (some e) (by omega) (by omega) hprev
    refine ⟨elast, helast, ?_⟩
    rw [retryLoop, dif_neg (by omega)]
    rw [he]
    dsimp only
    rw [if_pos (by omega)]
    rw [hloop]
    simp [List.range']

/-- C7: the retry loop makes at most `retries` attempts with backoff
delays `min(1000 * 2^(k-1), 5000)` between them; it returns the first
successful attempt's date, and after exhausting all attempts the last
error becomes a cached error entry (`publishDate` null, error message
set) rather than an uncaught exception. -/
theorem fetchPackageInfoWithRetry_spec (att : AttemptOracle) (retries : Nat)
    (hr : 1 ≤ retries) :
    (∀ d j, 1 ≤ j → j ≤ retries → att j = .ok d →
      (∀ i, 1 ≤ i → i < j → ∃ e, att i = .error e) →
      fetchPackageInfoWithRetry att retries =
        ⟨.ok d, (List.range' 1 (j - 1)).map backoffDelay, j⟩) ∧
    ((∀ i, 1 ≤ i → i ≤ retries → ∃ e, att i = .error e) →
      ∃ elast, att retries = .error elast ∧
        fetchPackageInfoWithRetry att retries =
          ⟨.error (some elast),
            (List.range' 1 (retries - 1)).map backoffDelay, retries⟩ ∧
        (∀ now, entryOfOutcome now (.error elast) = ⟨none, now, some elast⟩)) ∧
    (∀ i, backoffDelay (i + 1) = min (1000 * 2 ^ i) 5000) ∧
    backoffDelay 1 = 1000 ∧ backoffDelay 2 = 2000 ∧
    backoffDelay 3 = 4000 ∧ backoffDelay 4 = 5000 ∧ backoffDelay 5 = 5000 := by
  refine ⟨?_, ?_, fun i => rfl, by decide, by decide, by decide, by decide, by decide⟩
  · intro d j hj1 hj2 hok herr
    unfold fetchPackageInfoWithRetry
    have hj : 1 + (j - 1) = j := by omega
    have := retryLoop_success att retries d (j - 1) 1 none (le_refl _)
      (by omega) (by rw [hj]; exact hok)
      (fun i hi1 hi2 => herr i hi1 (by omega))
    rw [this]
    have hlen : j - 1 + 1 = j := by omega
    rw [hlen]
  · intro herr
    unfold fetchPackageInfoWithRetry
    obtain ⟨elast, helast, hloop⟩ :=
      retryLoop_allfail att retries (retries - 1) 1 none (le_refl _) (by omega)
        (fun i hi1 hi2 => herr i hi1 hi2)
    refine ⟨elast, helast, ?_, fun now => rfl⟩
    rw [hloop]
    have hlen : retries - 1 + 1 = retries := by omega
    rw [hlen]

/-- Witness for C7: two timed-out attempts then a success resolve the
date with backoff delays 1000ms and 2000ms and three attempts. -/
theorem fetchPackageInfoWithRetry_spec_witness :
    (1 ≤ 3 ∧
      ((fun i => if i ≤ 2 then Except.error (strOf "timeout")
          else Except.ok (some (0 : Int))) : AttemptOracle) 3 = .ok (some 0)) ∧
    fetchPackageInfoWithRetry
        (fun i => if i ≤ 2 then Except.error (strOf "timeout")
          else Except.ok (some (0 : Int))) 3 =
      ⟨.ok (some 0), [1000, 2000], 3⟩ := by
  refine ⟨⟨by decide, by decide⟩, ?_⟩
  have h := (fetchPackageInfoWithRetry_spec
      (fun i => if i ≤ 2 then Except.error (strOf "timeout")
        else Except.ok (some (0 : Int))) 3 (by decide)).1
    (some 0) 3 (by decide) (by decide) (by decide)
    (fun i h1 h2 => ⟨strOf "timeout", by
      have hi : i ≤ 2 := by omega
      simp [hi]⟩)
  rw [h]
  decide

/-- C8: `createBatches` partitions the uncached entries in order into
`ceil(n / c)` batches, each nonempty and of size at most the
concurrency `c`, with every batch but the last of size exactly `c`;
concatenating the batches in order restores the input list, so the
sequential batch loop of `fetchUncachedPackages` has at most `c`
requests outstanding at a time. -/
theorem createBatches_partition_spec {α : Type} (items : List α) (c : Nat)
    (hc : 0 < c) :
    (createBatches items c).join = items ∧
    (createBatches items c).length = (items.length + c - 1) / c ∧
    (∀ b ∈ createBatches items c, 0 < b.length ∧ b.length ≤ c) ∧
    (∀ b ∈ (createBatches items c).dropLast, b.length = c) :=
  ⟨createBatches_join c hc items, createBatches_length c hc items,
    createBatches_size_le c hc items, createBatches_dropLast_size c hc items⟩

/-- Witness for C8: five entries at concurrency 2 give batches of
sizes 2, 2, 1. -/
theorem createBatches_partition_spec_witness :
    (0 < 2 ∧ createBatches [1, 2, 3, 4, 5] 2 = [[1, 2], [3, 4], [5]]) ∧
    ((createBatches [1, 2, 3, 4, 5] 2).join = [1, 2, 3, 4, 5] ∧
      (createBatches [1, 2, 3, 4, 5] 2).length = (5 + 2 - 1) / 2 ∧
      (∀ b ∈ createBatches [1, 2, 3, 4, 5] 2, 0 < b.length ∧ b.length ≤ 2) ∧
      (∀ b ∈ (createBatches [1, 2, 3, 4, 5] 2).dropLast, b.length = 2)) :=
  ⟨⟨by decide, by simp [createBatches]⟩,
    by
      have h := createBatches_partition_spec [1, 2, 3, 4, 5] 2 (by decide)
      simpa using h⟩

/-! ## Lemmas about the registry cache -/

theorem foldl_join_eq {α β : Type} (f : β → α → β) :
    ∀ (L : List (List α)) (b : β),
      (L.join).foldl f b = L.foldl (fun acc l => l.foldl f acc) b := by
  intro L
  induction L with
  | nil => intro b; rfl
  | cons l ls ih =>
    intro b
    have h1 : (l :: ls).join = l ++ ls.join := rfl
    rw [h1, List.foldl_append, ih]
    rfl

/-- The batched double fold of `fetchUncachedPackages` writes the same
cache as a single left-to-right pass over the parsed packages. -/
theorem fetchUncachedPackages_eq_foldl (resolve : Resolver) (c : Nat) (now : Int)
    (cache : Cache) (packages : List Str) (hc : 0 < c) :
    fetchUncachedPackages resolve c now cache packages =
      (packages.map parsePkg).foldl
        (fun c2 pkg => (PackageFormatter.toKey pkg.1 pkg.2,
          entryOfOutcome now (resolve pkg.1 pkg.2)) :: c2) cache := by
  unfold fetchUncachedPackages
  rw [← createBatches_join c hc (packages.map parsePkg), foldl_join_eq]
  rw [createBatches_join c hc]

/-- A key written by no package of the pass keeps its old cache
binding. -/
theorem assocGet_writes_of_not_written (resolve : Resolver) (now : Int) (k : Str) :
    ∀ (infos : List (Str × Str)) (cache : Cache),
      (∀ pkg ∈ infos, PackageFormatter.toKey pkg.1 pkg.2 ≠ k) →
      assocGet (infos.foldl
        (fun c2 pkg => (PackageFormatter.toKey pkg.1 pkg.2,
          entryOfOutcome now (resolve pkg.1 pkg.2)) :: c2) cache) k =
        assocGet cache k := by
  intro infos
  induction infos with
  | nil => intro cache _; rfl
  | cons info rest ih =>
    intro cache hnone
    rw [List.foldl_cons]
    rw [ih _ (fun p hp => hnone p (List.mem_cons_of_mem info hp))]
    simp only [assocGet]
    rw [if_neg (hnone info (List.mem_cons_self info rest))]

/-- A key written by some package of the pass ends bound to the settled
outcome of the oracle at the parse of the key itself (all writers of a
key share that parse). -/
theorem assocGet_writes_of_written (resolve : Resolver) (now : Int) (k : Str) :
    ∀ (inputs : List Str) (cache : Cache),
      (∃ q ∈ inputs, PackageFormatter.toKey (parsePkg q).1 (parsePkg q).2 = k) →
      assocGet ((inputs.map parsePkg).foldl
        (fun c2 pkg => (PackageFormatter.toKey pkg.1 pkg.2,
          entryOfOutcome now (resolve pkg.1 pkg.2)) :: c2) cache) k =
        some (entryOfOutcome now (resolve (parsePkg k).1 (parsePkg k).2)) := by
  intro inputs
  induction inputs with
  | nil => rintro cache ⟨q, hq, _⟩; cases hq
  | cons q rest ih =>
    intro cache hex
    rw [List.map_cons, List.foldl_cons]
    by_cases hrest : ∃ p ∈ rest, PackageFormatter.toKey (parsePkg p).1 (parsePkg p).2 = k
    · exact ih _ hrest
    · push_neg at hrest
      obtain ⟨p, hp, hpk⟩ := hex
      rcases List.mem_cons.mp hp with rfl | hp2
      · rw [assocGet_writes_of_not_written resolve now k (rest.map parsePkg) _
          (by
            intro pr hpr
            rcases List.mem_map.mp hpr with ⟨p2, hp2m, rfl⟩
            exact hrest p2 hp2m)]
        simp only [assocGet]
        rw [if_pos hpk]
        have hstable := parsePkg_key_stable p
        rw [hpk] at hstable
        rw [hstable]
      · exact absurd hpk (hrest p hp2)

/-- Looking a key up in the map built by `getCachedPackages` gives the
cached non-null publish date exactly when the key was requested. -/
theorem assocGet_getCachedPackages (cache : Cache) (k : Str) :
    ∀ (packages : List Str),
      assocGet (getCachedPackages cache packages) k =
        if k ∈ packages then
          match assocGet cache k with
          | some entry => entry.publishDate
          | none => none
        else none := by
  intro packages
  induction packages with
  | nil => simp [getCachedPackages, assocGet]
  | cons p rest ih =>
    unfold getCachedPackages at ih ⊢
    rw [List.filterMap_cons]
    by_cases hpk : p = k
    · subst hpk
      cases hc : assocGet cache p with
      | none =>
        simp only [hc]
        rw [ih]
        by_cases hk : p ∈ rest
        · simp [hk, hc]
        · simp [hk, hc]
      | some entry =>
        cases hd : entry.publishDate with
        | none =>
          simp only [hc, hd, Option.map_none']
          rw [ih]
          by_cases hk : p ∈ rest
          · simp [hk, hc, hd]
          · simp [hk, hc, hd]
        | some d =>
          simp only [hc, hd, Option.map_some']
          simp only [assocGet, if_pos rfl]
          simp [hc, hd]
    · have hknp : ¬k = p := fun h => hpk h.symm
      cases hc : assocGet cache p with
      | none =>
        simp only [hc]
        rw [ih]
        by_cases hk : k ∈ rest <;> simp [hk, List.mem_cons, hknp]
      | some entry =>
        cases hd : entry.publishDate with
        | none =>
          simp only [hc, hd, Option.map_none']
          rw [ih]
          by_cases hk : k ∈ rest <;> simp [hk, List.mem_cons, hknp]
        | some d =>
          simp only [hc, hd, Option.map_some']
          simp only [assocGet, if_neg hpk]
          rw [ih]
          by_cases hk : k ∈ rest <;> simp [hk, List.mem_cons, hknp]

/-- C3: a package string whose fetch settles to a null publish date
(HTTP 404 / missing time entry resolve to `Except.ok none`; exhausted
retries to `Except.error`) gets no binding in the returned date map,
and no violation produced from any candidate list carries its
`name@version` key — absence of a resolvable date never causes a
failure by itself. -/
theorem nullFetch_absent_from_map_and_violations
    (resolve : Resolver) (c : Nat) (now : Int) (cache : Cache)
    (packages : List Str) (pkg : Str) (hc : 0 < c)
    (hat : '@' ∈ pkg)
    (hlocal : isLocalPkg pkg = false)
    (hmem : pkg ∈ packages)
    (hcache : assocGet cache pkg = none)
    (hnull : resolve (parsePkg pkg).1 (parsePkg pkg).2 = .ok none ∨
      ∃ e, resolve (parsePkg pkg).1 (parsePkg pkg).2 = .error e) :
    assocGet (getPackagesPublishDates resolve c now cache packages).dates pkg =
      none ∧
    (∀ (minimumAgeHours : ℚ) (now2 : Int) (candidates : List PackageInfo)
        (v : PackageViolation),
      v ∈ validatePackageAges minimumAgeHours now2 candidates
        (assocGet (getPackagesPublishDates resolve c now cache packages).dates) →
      PackageFormatter.toKey v.name v.version ≠ pkg) := by
  have hent : (entryOfOutcome now
      (resolve (parsePkg pkg).1 (parsePkg pkg).2)).publishDate = none := by
    rcases hnull with h | ⟨e, h⟩ <;> rw [h] <;> rfl
  have hnpm : pkg ∈ packages.filter (fun p => !isLocalPkg p) :=
    List.mem_filter.mpr ⟨hmem, by simp [hlocal]⟩
  have hcachedlookup : assocGet
      (getCachedPackages cache (packages.filter (fun p => !isLocalPkg p))) pkg =
      none := by
    rw [assocGet_getCachedPackages]
    simp [hnpm, hcache]
  have huncached : pkg ∈ (packages.filter (fun p => !isLocalPkg p)).filter
      (fun p => (assocGet
        (getCachedPackages cache (packages.filter (fun p => !isLocalPkg p)))
        p).isNone) :=
    List.mem_filter.mpr ⟨hnpm, by simp [hcachedlookup]⟩
  have hifpos : 0 < ((packages.filter (fun p => !isLocalPkg p)).filter
      (fun p => (assocGet
        (getCachedPackages cache (packages.filter (fun p => !isLocalPkg p)))
        p).isNone)).length :=
    List.length_pos.mpr (List.ne_nil_of_mem huncached)
  have hdatesq : (getPackagesPublishDates resolve c now cache packages).dates =
      getCachedPackages
        (fetchUncachedPackages resolve c now cache
          ((packages.filter (fun p => !isLocalPkg p)).filter
            (fun p => (assocGet
              (getCachedPackages cache (packages.filter (fun p => !isLocalPkg p)))
              p).isNone)))
        (packages.filter (fun p => !isLocalPkg p)) := by
    simp only [getPackagesPublishDates]
    rw [if_pos hifpos]
  have hwrite : assocGet
      (fetchUncachedPackages resolve c now cache
        ((packages.filter (fun p => !isLocalPkg p)).filter
          (fun p => (assocGet
            (getCachedPackages cache (packages.filter (fun p => !isLocalPkg p)))
            p).isNone))) pkg =
      some (entryOfOutcome now (resolve (parsePkg pkg).1 (parsePkg pkg).2)) := by
    rw [fetchUncachedPackages_eq_foldl resolve c now cache _ hc]
    exact assocGet_writes_of_written resolve now pkg _ cache
      ⟨pkg, huncached, toKey_parsePkg pkg hat⟩
  have habs : assocGet
      (getPackagesPublishDates resolve c now cache packages).dates pkg = none := by
    rw [hdatesq, assocGet_getCachedPackages, if_pos hnpm, hwrite]
    exact hent
  refine ⟨habs, ?_⟩
  intro minimumAgeHours now2 candidates v hv hkey
  rw [validatePackageAges_mem] at hv
  obtain ⟨cand, _hcand, pd, hpd, _hage, rfl⟩ := hv
  have hkey2 : PackageFormatter.fromPackageInfo cand = pkg := hkey
  rw [hkey2] at hpd
  rw [habs] at hpd
  cases hpd

/-- Witness for C3: a 404-style null resolution of `ghost@1.0.0` leaves
the key out of the returned date map. -/
theorem nullFetch_absent_from_map_and_violations_witness :
    (0 < 1 ∧ '@' ∈ strOf "ghost@1.0.0" ∧
      isLocalPkg (strOf "ghost@1.0.0") = false ∧
      strOf "ghost@1.0.0" ∈ [strOf "ghost@1.0.0"] ∧
      assocGet ([] : Cache) (strOf "ghost@1.0.0") = none) ∧
    assocGet (getPackagesPublishDates (fun _ _ => Except.ok none) 1 0 []
        [strOf "ghost@1.0.0"]).dates (strOf "ghost@1.0.0") = none :=
  ⟨⟨by decide, by decide, by decide, by decide, rfl⟩,
    (nullFetch_absent_from_map_and_violations (fun _ _ => Except.ok none) 1 0 []
      [strOf "ghost@1.0.0"] (strOf "ghost@1.0.0") (by decide) (by decide)
      (by decide) (by decide) rfl (Or.inl rfl)).1⟩

/-- C4 (code bug): the null outcome of `ghost@1.0.0` IS written to the
cache by the first `getPackagesPublishDates` call, but because
`getCachedPackages` skips entries with a null `publishDate`, the second
call within the TTL still treats the key as uncached and issues a
second network fetch — two fetches across the two calls instead of
one. -/
theorem cachedNullEntry_refetched_on_second_call :
    (getPackagesPublishDates (fun _ _ => Except.ok none) 1 0 []
        [strOf "ghost@1.0.0"]).fetched = [strOf "ghost@1.0.0"] ∧
    assocGet (getPackagesPublishDates (fun _ _ => Except.ok none) 1 0 []
        [strOf "ghost@1.0.0"]).cache (strOf "ghost@1.0.0") =
      some ⟨none, 0, none⟩ ∧
    (getPackagesPublishDates (fun _ _ => Except.ok none) 1 0
        (getPackagesPublishDates (fun _ _ => Except.ok none) 1 0 []
          [strOf "ghost@1.0.0"]).cache
        [strOf "ghost@1.0.0"]).fetched = [strOf "ghost@1.0.0"] := by
  refine ⟨?_, ?_, ?_⟩ <;>
    simp [getPackagesPublishDates, fetchUncachedPackages, getCachedPackages,
      createBatches, parsePkg, splitChar, joinChar, assocGet, isLocalPkg,
      containsSeq, entryOfOutcome, strOf, PackageFormatter.toKey,
      List.isPrefixOf]

/-- C10 (counterexample): `@scope/pkg` contains no `'@'` after its
first character, yet the code does not default its version to
`latest`: it splits at the leading `'@'` into name `""` and version
`"scope/pkg"`, caches the outcome under the input string itself, and a
successful fetch therefore DOES appear in the returned map. -/
theorem parsePkg_scoped_bare_name_counterexample :
    parsePkg (strOf "@scope/pkg") = (strOf "", strOf "scope/pkg") ∧
    parsePkg (strOf "@scope/pkg") ≠ (strOf "@scope/pkg", strOf "latest") ∧
    assocGet (getPackagesPublishDates (fun _ _ => Except.ok (some 7)) 1 0 []
        [strOf "@scope/pkg"]).dates (strOf "@scope/pkg") = some 7 := by
  refine ⟨by decide, by decide, ?_⟩
  simp [getPackagesPublishDates, fetchUncachedPackages, getCachedPackages,
    createBatches, parsePkg, splitChar, joinChar, assocGet, isLocalPkg,
    containsSeq, entryOfOutcome, strOf, PackageFormatter.toKey,
    List.isPrefixOf]

/-- C10 (amended): the split-at-last-'@' branch triggers for every
input containing an `'@'` anywhere (such inputs are cached under
themselves, and a well-formed `name@version` key recovers name and
version); only inputs with no `'@'` at all default to version
`latest`, are cached under `name@latest`, and never appear in the
returned map even when the fetch succeeds. -/
theorem parsePkg_key_roundtrip_spec (pkg : Str) :
    ('@' ∈ pkg → PackageFormatter.toKey (parsePkg pkg).1 (parsePkg pkg).2 = pkg) ∧
    (∀ n v : Str, '@' ∉ v → parsePkg (PackageFormatter.toKey n v) = (n, v)) ∧
    ('@' ∉ pkg →
      parsePkg pkg = (pkg, strOf "latest") ∧
      (∀ (resolve : Resolver) (c : Nat) (now : Int) (cache : Cache),
        0 < c → isLocalPkg pkg = false → assocGet cache pkg = none →
        assocGet (getPackagesPublishDates resolve c now cache [pkg]).dates pkg =
          none ∧
        assocGet (getPackagesPublishDates resolve c now cache [pkg]).cache
            (PackageFormatter.toKey pkg (strOf "latest")) =
          some (entryOfOutcome now (resolve pkg (strOf "latest"))))) := by
  refine ⟨toKey_parsePkg pkg, fun n v hv => parsePkg_toKey n v hv, ?_⟩
  intro hno
  refine ⟨parsePkg_no_at pkg hno, ?_⟩
  intro resolve c now cache hc hlocal hcache
  have hnpm_eq : [pkg].filter (fun p => !isLocalPkg p) = [pkg] := by
    simp [hlocal]
  have hcached1 : assocGet (getCachedPackages cache [pkg]) pkg = none := by
    rw [assocGet_getCachedPackages]
    simp [hcache]
  have hunc_eq : [pkg].filter
      (fun p => (assocGet (getCachedPackages cache [pkg]) p).isNone) = [pkg] := by
    simp [hcached1]
  have hkey0 : PackageFormatter.toKey (parsePkg pkg).1 (parsePkg pkg).2 =
      PackageFormatter.toKey pkg (strOf "latest") := by
    rw [parsePkg_no_at pkg hno]
  have hkne : PackageFormatter.toKey pkg (strOf "latest") ≠ pkg := by
    intro h
    have hl := congrArg List.length h
    simp only [PackageFormatter.toKey, List.length_append, List.length_cons] at hl
    omega
  have hproj : getPackagesPublishDates resolve c now cache [pkg] =
      ⟨getCachedPackages (fetchUncachedPackages resolve c now cache [pkg]) [pkg],
        fetchUncachedPackages resolve c now cache [pkg], [pkg]⟩ := by
    simp only [getPackagesPublishDates]
    rw [hnpm_eq, hunc_eq]
    rw [if_pos (by simp)]
  have hwrite_other : assocGet
      (fetchUncachedPackages resolve c now cache [pkg]) pkg = none := by
    rw [fetchUncachedPackages_eq_foldl resolve c now cache [pkg] hc]
    rw [assocGet_writes_of_not_written resolve now pkg ([pkg].map parsePkg) cache
      (by
        intro info hinfo
        rcases List.mem_map.mp hinfo with ⟨q, hq, rfl⟩
        rcases List.mem_singleton.mp hq with rfl
        rw [hkey0]
        exact hkne)]
    exact hcache
  have hwrite_key : assocGet
      (fetchUncachedPackages resolve c now cache [pkg])
      (PackageFormatter.toKey pkg (strOf "latest")) =
      some (entryOfOutcome now (resolve pkg (strOf "latest"))) := by
    rw [fetchUncachedPackages_eq_foldl resolve c now cache [pkg] hc]
    have h := assocGet_writes_of_written resolve now
      (PackageFormatter.toKey pkg (strOf "latest")) [pkg] cache
      ⟨pkg, List.mem_singleton_self pkg, hkey0⟩
    rw [h]
    rw [parsePkg_toKey pkg (strOf "latest") (by decide)]
  constructor
  · rw [hproj]
    simp only []
    rw [assocGet_getCachedPackages]
    rw [if_pos (List.mem_singleton_self pkg), hwrite_other]
  · rw [hproj]
    simp only []
    exact hwrite_key

/-- Witness for C10 (amended) at the bare name `lodash`: version
defaults to `latest`, the bare key never appears in the returned map,
and the outcome is cached under `lodash@latest`. -/
theorem parsePkg_key_roundtrip_spec_witness :
    ('@' ∉ strOf "lodash" ∧ 0 < 1 ∧ isLocalPkg (strOf "lodash") = false ∧
      assocGet ([] : Cache) (strOf "lodash") = none) ∧
    (parsePkg (strOf "lodash") = (strOf "lodash", strOf "latest") ∧
      assocGet (getPackagesPublishDates (fun _ _ => Except.ok (some 5)) 1 0 []
          [strOf "lodash"]).dates (strOf "lodash") = none ∧
      assocGet (getPackagesPublishDates (fun _ _ => Except.ok (some 5)) 1 0 []
          [strOf "lodash"]).cache
          (PackageFormatter.toKey (strOf "lodash") (strOf "latest")) =
        some (entryOfOutcome 0
          ((fun _ _ => Except.ok (some 5) : Resolver)
            (strOf "lodash") (strOf "latest")))) :=
  ⟨⟨by decide, by decide, by decide, rfl⟩, by
    have h := (parsePkg_key_roundtrip_spec (strOf "lodash")).2.2 (by decide)
    have h2 := h.2 (fun _ _ => Except.ok (some 5)) 1 0 [] (by decide) (by decide) rfl
    exact ⟨h.1, h2.1, h2.2⟩⟩

/-- C5 (counterexample): outside a git repository, a failing lockfile
read does NOT raise — `analyzeAllPackages` catches it and
`getModifiedPackages` returns a successful empty `GitDiffResult`. -/
theorem differ_nonGit_read_failure_counterexample :
    getModifiedPackages
        ⟨false, false, Except.error (strOf "EACCES"), none,
          fun _ => Except.error (strOf "unexpected")⟩ =
      .ok ⟨[], false, []⟩ := rfl

/-- C5 (amended): on the version-controlled path (git repository with
lockfile changes) every read or parse failure is wrapped with context
and rethrown as a single descriptive failure; on the non-git fallback
path, a read or parse failure is caught and silently yields the empty
successful result. -/
theorem getModifiedPackages_error_propagation (env : DifferEnv) :
    (env.isGitRepository = true → env.hasPackageLockChanges = true →
      (∀ e, env.readLockfile = .error e →
        getModifiedPackages env = .error (errorContext e)) ∧
      (∀ s e, env.readLockfile = .ok s → env.parseJson s = .error e →
        getModifiedPackages env = .error (errorContext e)) ∧
      (∀ s hs cur e, env.readLockfile = .ok s → env.headContent = some hs →
        env.parseJson s = .ok cur → env.parseJson hs = .error e →
        getModifiedPackages env = .error (errorContext e))) ∧
    (env.isGitRepository = false →
      ((∃ e, env.readLockfile = .error e) ∨
        (∃ s e, env.readLockfile = .ok s ∧ env.parseJson s = .error e)) →
      getModifiedPackages env = .ok ⟨[], false, []⟩) := by
  constructor
  · intro hgit hch
    refine ⟨?_, ?_, ?_⟩
    · intro e he
      simp [getModifiedPackages, hgit, hch, he]
    · intro s e hsr hpe
      cases hhead : env.headContent with
      | none => simp [getModifiedPackages, hgit, hch, hsr, hhead, hpe]
      | some hs => simp [getModifiedPackages, hgit, hch, hsr, hhead, hpe]
    · intro s hs cur e hsr hhead hpc hpe
      simp [getModifiedPackages, hgit, hch, hsr, hhead, hpc, hpe]
  · intro hgit herr
    have h1 : getModifiedPackages env = .ok (analyzeAllPackages env) := by
      simp [getModifiedPackages, hgit]
    rw [h1]
    rcases herr with ⟨e, he⟩ | ⟨s, e, hsr, hpe⟩
    · simp [analyzeAllPackages, he]
    · simp [analyzeAllPackages, hsr, hpe]

/-- Witness for C5 (amended): inside a git repository with lockfile
changes, an unreadable lockfile raises the wrapped error. -/
theorem getModifiedPackages_error_propagation_witness :
    ((⟨true, true, Except.error (strOf "ENOENT"), none,
        fun _ => Except.error (strOf "bad")⟩ : DifferEnv).isGitRepository = true ∧
      (⟨true, true, Except.error (strOf "ENOENT"), none,
        fun _ => Except.error (strOf "bad")⟩ : DifferEnv).hasPackageLockChanges = true ∧
      (⟨true, true, Except.error (strOf "ENOENT"), none,
        fun _ => Except.error (strOf "bad")⟩ : DifferEnv).readLockfile =
        .error (strOf "ENOENT")) ∧
    getModifiedPackages
        ⟨true, true, Except.error (strOf "ENOENT"), none,
          fun _ => Except.error (strOf "bad")⟩ =
      .error (errorContext (strOf "ENOENT")) :=
  ⟨⟨rfl, rfl, rfl⟩,
    ((getModifiedPackages_error_propagation
      ⟨true, true, Except.error (strOf "ENOENT"), none,
        fun _ => Except.error (strOf "bad")⟩).1 rfl rfl).1 (strOf "ENOENT") rfl⟩
